import Mathlib

/-!
Verification of the binverse binary serialization library.

This file shallowly embeds the core of the repository in Lean:

* `varint.write` / `varint.read` embed `src/binverse/src/varint.rs`.
* `leBytes` / `leDecode` embed the fixed-width little-endian integer
  encoding used by the `number_impls!` macro of
  `src/binverse/src/primitives.rs` (Rust `to_le_bytes` / `from_le_bytes`).
* `SizeBytes`, `writeSize`, `serializeSized` embed
  `src/binverse/src/serialize.rs` and `Serializer::write_size` /
  `Serializer::serialize_sized` of `src/binverse/src/streams.rs`.
* `Ty`, `Value`, `serializeV`, `deserializeV` embed the
  `Serialize` / `Deserialize` implementations of
  `src/binverse/src/primitives.rs` over a deep universe of the supported
  value types.
* `FieldMod`, `addPat`, `deserializePatterns`, `recordSerialize`,
  `recordDeserialize` embed the code generated by the `serializable`
  attribute macro of `src/binverse_derive/src/lib.rs`.

Byte streams are modelled as `List Nat` with each element a byte value
below 256; the writer sink and the reader source of the Rust code are
modelled as pure list output and list-consuming input.  Machine integers
are modelled as `Nat` / `Int`, with an explicit `% 2 ^ 64` at the single
place where the Rust `u64` arithmetic can wrap.  A failing
`read_exact` (too little input) surfaces as the `io` error variant.
-/

/-- Embeds the `SizeBytes` enum of `src/binverse/src/serialize.rs`. -/
inductive SizeBytes where
  | One | Two | Four | Eight | Var
deriving DecidableEq, Repr

/-- Embeds `BinverseError` of `src/binverse/src/error.rs`.  The `IO(std::io::Error)`
variant is called `io` here; the payload of the underlying io error is irrelevant
to every claim and is dropped. -/
inductive BinverseError where
  | io : BinverseError
  | VarIntOverflow : BinverseError
  | InvalidUTF8 : BinverseError
  | SizeExceeded : SizeBytes → Nat → BinverseError
  | InvalidData : BinverseError
deriving DecidableEq, Repr

namespace varint

/-- Embeds `varint::MAX_LEN`. -/
def MAX_LEN : Nat := 10

/-- Embeds `varint::write` of `src/binverse/src/varint.rs`:
while `x >= 0x80` emit `(x as u8) | 0x80` and shift `x` right by 7;
finally emit `x`.  `x as u8` is `x % 256`; `x >>> 7` is the Rust `x >> 7`. -/
def write (x : Nat) : List Nat :=
  if _h : 0x80 ≤ x then (x % 256 ||| 0x80) :: write (x >>> 7)
  else [x]
  termination_by x
  decreasing_by
    simp only [Nat.shiftRight_eq_div_pow]
    exact Nat.div_lt_self (by omega) (by norm_num)

/-- The loop of `varint::read`, with `fuel = MAX_LEN - i` so that the Rust
loop index `i` equals `MAX_LEN - 1` exactly when `fuel = 0` after the match.
Running out of input is the Rust `read_exact` io error.  The `% 2 ^ 64`
marks the only places where the Rust shift of a `u64` can drop high bits. -/
def readLoop : Nat → Nat → Nat → List Nat → Except BinverseError (Nat × List Nat)
  | 0, _, _, _ => .error .VarIntOverflow
  | _ + 1, _, _, [] => .error .io
  | fuel + 1, x, s, b :: rest =>
    if b < 0x80 then
      if fuel = 0 ∧ 1 < b then .error .VarIntOverflow
      else .ok (x ||| (b <<< s) % 2 ^ 64, rest)
    else readLoop fuel (x ||| ((b &&& 0x7f) <<< s) % 2 ^ 64) (s + 7) rest

/-- Embeds `varint::read` of `src/binverse/src/varint.rs`. -/
def read (input : List Nat) : Except BinverseError (Nat × List Nat) :=
  readLoop MAX_LEN 0 0 input

end varint

/-- Little-endian byte encoding of a `width`-byte unsigned integer; embeds the
Rust `to_le_bytes` calls of the `number_impls!` macro in
`src/binverse/src/primitives.rs` (spec section 6: integers are little-endian,
fixed width equal to the bit width over 8). -/
def leBytes : Nat → Nat → List Nat
  | 0, _ => []
  | width + 1, x => x % 256 :: leBytes width (x / 256)

/-- Little-endian byte decoding; embeds the Rust `from_le_bytes` calls of the
`number_impls!` macro in `src/binverse/src/primitives.rs`. -/
def leDecode : List Nat → Nat
  | [] => 0
  | b :: bs => b + 256 * leDecode bs

theorem leBytes_length (width x : Nat) : (leBytes width x).length = width := by
  induction width generalizing x with
  | zero => rfl
  | succ n ih => simp [leBytes, ih]

theorem leDecode_leBytes (width x : Nat) (h : x < 2 ^ (8 * width)) :
    leDecode (leBytes width x) = x := by
  induction width generalizing x with
  | zero =>
    simp only [Nat.mul_zero, pow_zero, Nat.lt_one_iff] at h
    simp [leBytes, leDecode, h]
  | succ n ih =>
    have h2 : x / 256 < 2 ^ (8 * n) := by
      rw [Nat.div_lt_iff_lt_mul (by norm_num)]
      calc x < 2 ^ (8 * (n + 1)) := h
        _ = 2 ^ (8 * n) * 256 := by ring
    simp [leBytes, leDecode, ih _ h2, Nat.mod_add_div]

theorem leBytes_lt (width x : Nat) : ∀ b ∈ leBytes width x, b < 256 := by
  induction width generalizing x with
  | zero => simp [leBytes]
  | succ n ih =>
    intro b hb
    simp only [leBytes, List.mem_cons] at hb
    rcases hb with h | h
    · exact h ▸ Nat.mod_lt _ (by norm_num)
    · exact ih _ _ h

namespace varint

theorem lor_byte_eq_add (x : Nat) : x % 256 ||| 0x80 = x % 128 + 128 := by
  have h1 : x % 128 + 128 = 2 ^ 7 * 1 + x % 128 := by ring
  rw [h1, Nat.mul_add_lt_is_or (by omega : x % 128 < 2 ^ 7) 1]
  apply Nat.eq_of_testBit_eq
  intro i
  have e256 : (256 : Nat) = 2 ^ 8 := by norm_num
  have e128 : x % 128 = x % 2 ^ 7 := by norm_num
  rw [e256, e128]
  simp only [Nat.testBit_or, Nat.testBit_mod_two_pow, Nat.mul_one]
  rcases Nat.lt_trichotomy i 7 with h | h | h
  · have h8 : i < 8 := by omega
    have : (0x80 : Nat).testBit i = false := by
      have : (0x80 : Nat) = 2 ^ 7 := by norm_num
      rw [this, Nat.testBit_two_pow]
      simp
      omega
    simp [h, h8, this]
  · subst h
    have : (0x80 : Nat).testBit 7 = true := by decide
    simp [this]
  · have h8 : ¬ i < 8 := by omega
    have h7 : ¬ i < 7 := by omega
    have : (0x80 : Nat).testBit i = false := by
      have e : (0x80 : Nat) = 2 ^ 7 := by norm_num
      rw [e, Nat.testBit_two_pow]
      simp
      omega
    simp [h8, h7, this]

theorem cont_byte_land (x : Nat) : (x % 256 ||| 0x80) &&& 0x7f = x % 128 := by
  rw [lor_byte_eq_add]
  have e : (0x7f : Nat) = 2 ^ 7 - 1 := by norm_num
  rw [e, Nat.and_pow_two_sub_one_eq_mod]
  omega

theorem cont_byte_ge (x : Nat) : 0x80 ≤ x % 256 ||| 0x80 := by
  rw [lor_byte_eq_add]; omega

theorem cont_byte_lt (x : Nat) : x % 256 ||| 0x80 < 256 := by
  rw [lor_byte_eq_add]; omega

theorem readLoop_write (x : Nat) : ∀ (fuel acc s : Nat) (rest : List Nat),
    1 ≤ fuel → x < 2 ^ (7 * (fuel - 1) + 1) → acc < 2 ^ s → s + 7 * (fuel - 1) ≤ 63 →
    readLoop fuel acc s (write x ++ rest) = .ok (acc + x * 2 ^ s, rest) := by
  induction x using Nat.strong_induction_on with
  | _ x ih =>
    intro fuel acc s rest hfuel hx hacc hs
    obtain ⟨f, rfl⟩ : ∃ f, fuel = f + 1 := ⟨fuel - 1, by omega⟩
    simp only [Nat.add_sub_cancel] at hx hs
    rw [write]
    by_cases hge : 0x80 ≤ x
    · -- continuation byte emitted, then the rest of the groups
      have hf1 : 1 ≤ f := by
        by_contra hf0
        have : f = 0 := by omega
        subst this
        simp at hx
        omega
      rw [dif_pos hge]
      simp only [List.cons_append, readLoop]
      rw [if_neg (by have := cont_byte_ge x; omega)]
      rw [cont_byte_land]
      have hs56 : s ≤ 56 := by omega
      have hshift : (x % 128) <<< s < 2 ^ 64 := by
        rw [Nat.shiftLeft_eq]
        calc x % 128 * 2 ^ s < 128 * 2 ^ s := by
              have h1 : x % 128 < 128 := Nat.mod_lt _ (by norm_num)
              have h2 : (0 : Nat) < 2 ^ s := Nat.pos_pow_of_pos s (by norm_num)
              exact (Nat.mul_lt_mul_right h2).mpr h1
          _ = 2 ^ (s + 7) := by rw [pow_add]; ring
          _ ≤ 2 ^ 64 := Nat.pow_le_pow_right (by norm_num) (by omega)
      rw [Nat.mod_eq_of_lt hshift, Nat.shiftLeft_eq]
      have hacc2 : acc ||| x % 128 * 2 ^ s = 2 ^ s * (x % 128) + acc := by
        rw [Nat.or_comm, Nat.mul_comm (x % 128) (2 ^ s)]
        exact (Nat.mul_add_lt_is_or hacc (x % 128)).symm
      rw [hacc2]
      have hxdiv : x >>> 7 < x := by
        rw [Nat.shiftRight_eq_div_pow]
        exact Nat.div_lt_self (by omega) (by norm_num)
      have hxdiv2 : x >>> 7 < 2 ^ (7 * (f - 1) + 1) := by
        rw [Nat.shiftRight_eq_div_pow]
        rw [Nat.div_lt_iff_lt_mul (by norm_num : 0 < 2 ^ 7)]
        calc x < 2 ^ (7 * f + 1) := hx
          _ = 2 ^ (7 * (f - 1) + 1) * 2 ^ 7 := by
            rw [← pow_add]
            congr 1
            omega
      have haccb : 2 ^ s * (x % 128) + acc < 2 ^ (s + 7) := by
        have h1 : x % 128 < 128 := Nat.mod_lt _ (by norm_num)
        calc 2 ^ s * (x % 128) + acc < 2 ^ s * (x % 128) + 2 ^ s := by omega
          _ = 2 ^ s * (x % 128 + 1) := by ring
          _ ≤ 2 ^ s * 128 := by
            apply Nat.mul_le_mul_left
            omega
          _ = 2 ^ (s + 7) := by rw [pow_add]; ring
      have hrec := ih (x >>> 7) hxdiv f (2 ^ s * (x % 128) + acc) (s + 7) rest hf1 hxdiv2 haccb
        (by omega)
      simp only [List.append_eq] at hrec ⊢
      rw [hrec]
      -- accumulated value equals acc + x * 2 ^ s
      have hsplit : 128 * (x / 128) + x % 128 = x := Nat.div_add_mod x 128
      have hval : 2 ^ s * (x % 128) + acc + x >>> 7 * 2 ^ (s + 7) = acc + x * 2 ^ s := by
        rw [Nat.shiftRight_eq_div_pow]
        have e7 : (2 : Nat) ^ 7 = 128 := by norm_num
        rw [e7, pow_add, e7]
        generalize hP : (2 : Nat) ^ s = P
        calc P * (x % 128) + acc + x / 128 * (P * 128)
            = acc + (128 * (x / 128) + x % 128) * P := by ring
          _ = acc + x * P := by rw [hsplit]
      rw [hval]
    · -- final byte
      rw [dif_neg hge]
      simp only [List.cons_append, List.nil_append, readLoop]
      rw [if_pos (by omega)]
      have hne : ¬ (f = 0 ∧ 1 < x) := by
        rintro ⟨rfl, h1⟩
        simp at hx
        omega
      rw [if_neg hne]
      have hxs : x <<< s < 2 ^ 64 := by
        rw [Nat.shiftLeft_eq]
        calc x * 2 ^ s < 2 ^ (7 * f + 1) * 2 ^ s := by
              have h2 : (0 : Nat) < 2 ^ s := Nat.pos_pow_of_pos s (by norm_num)
              exact (Nat.mul_lt_mul_right h2).mpr hx
          _ = 2 ^ (7 * f + 1 + s) := by rw [← pow_add]
          _ ≤ 2 ^ 64 := Nat.pow_le_pow_right (by norm_num) (by omega)
      rw [Nat.mod_eq_of_lt hxs, Nat.shiftLeft_eq]
      have hval : acc ||| x * 2 ^ s = acc + x * 2 ^ s := by
        rw [Nat.or_comm, ← Nat.mul_comm (2 ^ s) x, ← Nat.mul_add_lt_is_or hacc x]
        ring
      simp [hval]

theorem read_write (x : Nat) (hx : x < 2 ^ 64) (rest : List Nat) :
    read (write x ++ rest) = .ok (x, rest) := by
  have h := readLoop_write x 10 0 0 rest (by norm_num) (by omega) (by norm_num)
    (by norm_num)
  simpa [read, MAX_LEN] using h

theorem write_length : ∀ (k x : Nat), x < 2 ^ (7 * k + 7) → (write x).length ≤ k + 1 := by
  intro k
  induction k with
  | zero =>
    intro x hx
    rw [write, dif_neg (by norm_num at hx; omega)]
    simp
  | succ n ih =>
    intro x hx
    rw [write]
    by_cases hge : 0x80 ≤ x
    · rw [dif_pos hge]
      simp only [List.length_cons]
      have : x >>> 7 < 2 ^ (7 * n + 7) := by
        rw [Nat.shiftRight_eq_div_pow]
        rw [Nat.div_lt_iff_lt_mul (by norm_num : 0 < 2 ^ 7)]
        calc x < 2 ^ (7 * (n + 1) + 7) := hx
          _ = 2 ^ (7 * n + 7) * 2 ^ 7 := by ring
      have := ih _ this
      omega
    · rw [dif_neg hge]
      simp

theorem readLoop_cont : ∀ (bs : List Nat) (fuel acc s : Nat) (rest : List Nat),
    bs.length = fuel → (∀ b ∈ bs, 0x80 ≤ b) →
    readLoop fuel acc s (bs ++ rest) = .error .VarIntOverflow := by
  intro bs
  induction bs with
  | nil =>
    intro fuel acc s rest hlen _
    simp at hlen
    subst hlen
    rfl
  | cons b bs ih =>
    intro fuel acc s rest hlen hcont
    obtain ⟨f, rfl⟩ : ∃ f, fuel = f + 1 := ⟨bs.length, by simpa using hlen.symm⟩
    simp only [List.cons_append, readLoop]
    rw [if_neg (by have := hcont b (by simp); omega)]
    exact ih f _ _ rest (by simpa using hlen) (fun a ha => hcont a (by simp [ha]))

theorem readLoop_skip : ∀ (bs : List Nat) (m acc s : Nat) (rest : List Nat),
    (∀ b ∈ bs, 0x80 ≤ b) →
    ∃ acc2, readLoop (bs.length + m) acc s (bs ++ rest) =
      readLoop m acc2 (s + 7 * bs.length) rest := by
  intro bs
  induction bs with
  | nil =>
    intro m acc s rest _
    exact ⟨acc, by simp⟩
  | cons b bs ih =>
    intro m acc s rest hcont
    simp only [List.length_cons, List.cons_append]
    have hstep : bs.length + 1 + m = (bs.length + m) + 1 := by omega
    rw [hstep]
    simp only [readLoop]
    rw [if_neg (by have := hcont b (by simp); omega)]
    obtain ⟨acc2, h⟩ := ih m (acc ||| (b &&& 0x7f) <<< s % 2 ^ 64) (s + 7) rest
      (fun a ha => hcont a (by simp [ha]))
    refine ⟨acc2, ?_⟩
    rw [h]
    congr 1
    omega

end varint

/-- C4: for every u64 value x, varint.read applied to the bytes produced by
varint.write x returns x and consumes exactly those bytes (in particular at
the boundary values 0, 1, 2 to the 63, and 2 to the 64 minus 1, see the
witness), and varint.write emits at most 10 bytes (MAX_LEN) for any x. -/
theorem varint_roundtrip_C4 (x : Nat) (hx : x < 2 ^ 64) (rest : List Nat) :
    varint.read (varint.write x ++ rest) = .ok (x, rest) ∧
    (varint.write x).length ≤ varint.MAX_LEN := by
  refine ⟨varint.read_write x hx rest, ?_⟩
  have h := varint.write_length 9 x (by omega)
  simpa [varint.MAX_LEN] using h

/-- Witness for C4 at the boundary values 0, 1, 2 to the 63 and 2 to the 64
minus 1. -/
theorem varint_roundtrip_C4_witness :
    (varint.read (varint.write 0 ++ []) = .ok (0, []) ∧
      (varint.write 0).length ≤ varint.MAX_LEN) ∧
    (varint.read (varint.write 1 ++ []) = .ok (1, []) ∧
      (varint.write 1).length ≤ varint.MAX_LEN) ∧
    (varint.read (varint.write (2 ^ 63) ++ []) = .ok (2 ^ 63, []) ∧
      (varint.write (2 ^ 63)).length ≤ varint.MAX_LEN) ∧
    (varint.read (varint.write (2 ^ 64 - 1) ++ []) = .ok (2 ^ 64 - 1, []) ∧
      (varint.write (2 ^ 64 - 1)).length ≤ varint.MAX_LEN) :=
  ⟨varint_roundtrip_C4 0 (by norm_num) [], varint_roundtrip_C4 1 (by norm_num) [],
    varint_roundtrip_C4 (2 ^ 63) (by norm_num) [],
    varint_roundtrip_C4 (2 ^ 64 - 1) (by norm_num) []⟩

/-- C5: varint.read fails with VarIntOverflow exactly on syntactically invalid
input: any input starting with 10 continuation bytes (high bit set) is
rejected, any input whose 10th byte terminates the varint with a value above 1
is rejected, and a 10-byte varint whose final byte is 0 or 1 is accepted. -/
theorem varint_overflow_C5 (bs : List Nat) (b : Nat) (rest : List Nat)
    (hlen : bs.length = 9) (hcont : ∀ a ∈ bs, 0x80 ≤ a ∧ a < 256) (hb : b < 0x80) :
    (∀ (cs rest2 : List Nat), cs.length = 10 → (∀ a ∈ cs, 0x80 ≤ a ∧ a < 256) →
      varint.read (cs ++ rest2) = .error .VarIntOverflow) ∧
    (1 < b → varint.read (bs ++ b :: rest) = .error .VarIntOverflow) ∧
    (b ≤ 1 → ∃ v, varint.read (bs ++ b :: rest) = .ok (v, rest)) := by
  have readLoop_one : ∀ (x s c : Nat) (r : List Nat), varint.readLoop 1 x s (c :: r) =
      if c < 0x80 then
        if 0 = 0 ∧ 1 < c then .error .VarIntOverflow
        else .ok (x ||| (c <<< s) % 2 ^ 64, r)
      else varint.readLoop 0 (x ||| ((c &&& 0x7f) <<< s) % 2 ^ 64) (s + 7) r :=
    fun _ _ _ _ => rfl
  refine ⟨?_, ?_, ?_⟩
  · intro cs rest2 hcs hconts
    exact varint.readLoop_cont cs 10 0 0 rest2 hcs (fun a ha => (hconts a ha).1)
  · intro hb1
    obtain ⟨acc2, hskip⟩ := varint.readLoop_skip bs 1 0 0 (b :: rest)
      (fun a ha => (hcont a ha).1)
    have h10 : bs.length + 1 = varint.MAX_LEN := by rw [hlen]; rfl
    unfold varint.read
    rw [← h10, hskip, readLoop_one]
    rw [if_pos hb, if_pos (⟨rfl, hb1⟩ : 0 = 0 ∧ 1 < b)]
  · intro hb1
    obtain ⟨acc2, hskip⟩ := varint.readLoop_skip bs 1 0 0 (b :: rest)
      (fun a ha => (hcont a ha).1)
    have h10 : bs.length + 1 = varint.MAX_LEN := by rw [hlen]; rfl
    unfold varint.read
    rw [← h10, hskip, readLoop_one]
    rw [if_pos hb, if_neg (by rintro ⟨_, hcontr⟩; omega)]
    exact ⟨_, rfl⟩

/-- Witness for C5: ten continuation bytes overflow; nine continuation bytes
followed by the terminator 2 overflow; nine continuation bytes followed by the
terminator 1 are accepted. -/
theorem varint_overflow_C5_witness :
    (∀ (cs rest2 : List Nat), cs.length = 10 → (∀ a ∈ cs, 0x80 ≤ a ∧ a < 256) →
      varint.read (cs ++ rest2) = .error .VarIntOverflow) ∧
    (1 < 2 → varint.read (List.replicate 9 0x80 ++ 2 :: []) = .error .VarIntOverflow) ∧
    ((1 : Nat) ≤ 1 → ∃ v, varint.read (List.replicate 9 0x80 ++ 1 :: []) = .ok (v, [])) := by
  refine ⟨(varint_overflow_C5 (List.replicate 9 0x80) 2 [] (by simp)
      (by intro a ha; simp at ha; omega) (by norm_num)).1, ?_, ?_⟩
  · exact (varint_overflow_C5 (List.replicate 9 0x80) 2 [] (by simp)
      (by intro a ha; simp at ha; omega) (by norm_num)).2.1
  · exact (varint_overflow_C5 (List.replicate 9 0x80) 1 [] (by simp)
      (by intro a ha; simp at ha; omega) (by norm_num)).2.2

/-- C10: varint.read accepts non-minimal encodings that varint.write never
produces: the two bytes 0x80 0x00 contain a redundant continuation group,
decode successfully to 0 just like the minimal encoding 0x00 (which is what
varint.write 0 produces), so two distinct accepted inputs decode to the same
u64 value. -/
theorem varint_nonminimal_C10 :
    varint.read [0x80, 0x00] = .ok (0, []) ∧
    varint.read [0x00] = .ok (0, []) ∧
    varint.write 0 = [0x00] ∧
    ([0x80, 0x00] : List Nat) ≠ [0x00] := by
  refine ⟨rfl, rfl, ?_, by decide⟩
  rw [varint.write]
  norm_num

/-- Reading `n` raw bytes, embedding `Deserializer::read` of
`src/binverse/src/streams.rs` (a `read_exact` into a buffer of length `n`);
too little input is the underlying io error. -/
def readBytes (n : Nat) (input : List Nat) : Except BinverseError (List Nat × List Nat) :=
  if n ≤ input.length then .ok (input.take n, input.drop n) else .error .io

theorem readBytes_append (bs rest : List Nat) :
    readBytes bs.length (bs ++ rest) = .ok (bs, rest) := by
  unfold readBytes
  rw [if_pos (by simp)]
  simp

/-- Modelled from the spec: the UTF-8 validation performed by
`String::from_utf8` in `String::deserialize_sized` of
`src/binverse/src/primitives.rs` is part of the Rust standard library, not of
this repository.  Following the spec (strings decode by reading exactly n raw
bytes and validating them as UTF-8 text), this is the standard RFC 3629
definition of valid UTF-8 byte sequences. -/
def isValidUtf8 : List Nat → Bool
  | [] => true
  | b :: rest =>
    if b < 0x80 then isValidUtf8 rest
    else if 0xC2 ≤ b ∧ b ≤ 0xDF then
      match rest with
      | c1 :: r => (0x80 ≤ c1 && c1 ≤ 0xBF) && isValidUtf8 r
      | [] => false
    else if 0xE0 ≤ b ∧ b ≤ 0xEF then
      match rest with
      | c1 :: c2 :: r =>
        (if b = 0xE0 then 0xA0 ≤ c1 && c1 ≤ 0xBF
         else if b = 0xED then 0x80 ≤ c1 && c1 ≤ 0x9F
         else 0x80 ≤ c1 && c1 ≤ 0xBF) &&
        ((0x80 ≤ c2 && c2 ≤ 0xBF) && isValidUtf8 r)
      | _ => false
    else if 0xF0 ≤ b ∧ b ≤ 0xF4 then
      match rest with
      | c1 :: c2 :: c3 :: r =>
        (if b = 0xF0 then 0x90 ≤ c1 && c1 ≤ 0xBF
         else if b = 0xF4 then 0x80 ≤ c1 && c1 ≤ 0x8F
         else 0x80 ≤ c1 && c1 ≤ 0xBF) &&
        ((0x80 ≤ c2 && c2 ≤ 0xBF) && ((0x80 ≤ c3 && c3 ≤ 0xBF) && isValidUtf8 r))
      | _ => false
    else false

/-- Embeds `String::deserialize_sized` of `src/binverse/src/primitives.rs`:
read exactly `size` raw bytes, then validate them as UTF-8; on failure the
result is the InvalidUTF8 error (no lossy conversion).  The Lean model keeps
the string as its list of UTF-8 bytes. -/
def stringDeserializeSized (size : Nat) (input : List Nat) :
    Except BinverseError (List Nat × List Nat) := do
  let (bs, rest) ← readBytes size input
  if isValidUtf8 bs then .ok (bs, rest) else .error .InvalidUTF8

/-- The deep universe of the supported value types of claim C3: booleans,
fixed-width integers (unsigned and signed, `width` bytes), fixed arrays,
tuples (as nested pairs, whose wire format is the same concatenation),
optionals, strings, sequences (Vec) and maps (HashMap, modelled as its
key-value pair sequence in iteration order). -/
inductive Ty where
  | boolT : Ty
  | uintT : Nat → Ty
  | intT : Nat → Ty
  | arrayT : Ty → Nat → Ty
  | optionT : Ty → Ty
  | pairT : Ty → Ty → Ty
  | stringT : Ty
  | vecT : Ty → Ty
  | mapT : Ty → Ty → Ty
deriving DecidableEq, Repr

/-- The Lean values inhabiting each universe type. -/
@[reducible] def Value : Ty → Type
  | .boolT => Bool
  | .uintT _ => Nat
  | .intT _ => Int
  | .arrayT t _ => List (Value t)
  | .optionT t => Option (Value t)
  | .pairT a b => Value a × Value b
  | .stringT => List Nat
  | .vecT t => List (Value t)
  | .mapT k v => List (Value k × Value v)

/-- The invariants every Rust value of the corresponding type satisfies by
construction: machine integers fit their width, array lengths match the
const generic, strings are valid UTF-8, and container lengths fit usize. -/
def Wf : (t : Ty) → Value t → Prop
  | .boolT, _ => True
  | .uintT width, x => x < 2 ^ (8 * width)
  | .intT width, x =>
    1 ≤ width ∧ -(2 ^ (8 * width - 1) : Int) ≤ x ∧ x < (2 ^ (8 * width - 1) : Int)
  | .arrayT t len, xs => xs.length = len ∧ ∀ x ∈ xs, Wf t x
  | .optionT t, v => match v with | none => True | some x => Wf t x
  | .pairT a b, v => Wf a v.1 ∧ Wf b v.2
  | .stringT, bs => bs.length < 2 ^ 64 ∧ isValidUtf8 bs = true
  | .vecT t, xs => xs.length < 2 ^ 64 ∧ ∀ x ∈ xs, Wf t x
  | .mapT k v, ps => ps.length < 2 ^ 64 ∧ ∀ p ∈ ps, Wf k p.1 ∧ Wf v p.2

/-- Embeds the `Serialize` implementations of `src/binverse/src/primitives.rs`.
Booleans write `*self as u8`; integers write `to_le_bytes` (signed ones the
two&apos;s complement pattern); arrays and tuples write each element in order with
no length; optionals write a one-byte discriminant then the payload when
present; strings, Vec and HashMap go through the blanket
`serialize_sized(SizeBytes::Var, self)` implementation, which writes the
length as a varint (`write_size` with `Var` never fails for a usize length,
see `writeSize_var`) followed by the elements (raw bytes for strings,
key then value for each map pair). -/
def serializeV : (t : Ty) → Value t → List Nat
  | .boolT, b => [if b then 1 else 0]
  | .uintT width, x => leBytes width x
  | .intT width, x => leBytes width (x % (2 ^ (8 * width) : Int)).toNat
  | .arrayT t _, xs => (xs.map (fun x => serializeV t x)).flatten
  | .optionT t, v =>
    match v with
    | none => [0]
    | some x => 1 :: serializeV t x
  | .pairT a b, v => serializeV a v.1 ++ serializeV b v.2
  | .stringT, bs => varint.write bs.length ++ bs
  | .vecT t, xs => varint.write xs.length ++ (xs.map (fun x => serializeV t x)).flatten
  | .mapT k v, ps =>
    varint.write ps.length ++ (ps.map (fun p => serializeV k p.1 ++ serializeV v p.2)).flatten

/-- Reading `count` consecutive values with the element reader `f`; embeds the
`(0..size).map(|_| d.deserialize()).collect()` loops of the `Vec`, `HashMap`
and `[T; N]` Deserialize implementations (the collect stops at the first
error, exactly like the early return here). -/
def readN {α : Type} (f : List Nat → Except BinverseError (α × List Nat)) :
    Nat → List Nat → Except BinverseError (List α × List Nat)
  | 0, input => .ok ([], input)
  | count + 1, input => do
    let (v, r) ← f input
    let (vs, r2) ← readN f count r
    .ok (v :: vs, r2)

/-- Embeds the `Deserialize` implementations of `src/binverse/src/primitives.rs`.
Booleans read one byte and accept only 0 and 1 (anything else is InvalidData);
integers read `width` bytes and apply `from_le_bytes` (signed ones interpret
the pattern as two&apos;s complement); arrays read the elements in order; optionals
read the one-byte discriminant, accepting only 0 and 1; strings, Vec and
HashMap go through the blanket `deserialize_sized(SizeBytes::Var)`
implementation, reading a varint length and then exactly that many elements. -/
def deserializeV : (t : Ty) → List Nat → Except BinverseError (Value t × List Nat)
  | .boolT, [] => .error .io
  | .boolT, b :: rest =>
    if b = 0 then .ok (false, rest)
    else if b = 1 then .ok (true, rest)
    else .error .InvalidData
  | .uintT width, input => do
    let (bs, rest) ← readBytes width input
    .ok (leDecode bs, rest)
  | .intT width, input => do
    let (bs, rest) ← readBytes width input
    let p := leDecode bs
    .ok (if p < 2 ^ (8 * width - 1) then (p : Int) else (p : Int) - (2 ^ (8 * width) : Int),
      rest)
  | .arrayT t len, input => readN (fun s => deserializeV t s) len input
  | .optionT _, [] => .error .io
  | .optionT t, b :: rest =>
    if b = 0 then .ok (none, rest)
    else if b = 1 then do
      let (v, r) ← deserializeV t rest
      .ok (some v, r)
    else .error .InvalidData
  | .pairT a b, input => do
    let (va, r1) ← deserializeV a input
    let (vb, r2) ← deserializeV b r1
    .ok ((va, vb), r2)
  | .stringT, input => do
    let (n, r1) ← varint.read input
    stringDeserializeSized n r1
  | .vecT t, input => do
    let (n, r1) ← varint.read input
    readN (fun s => deserializeV t s) n r1
  | .mapT k v, input => do
    let (n, r1) ← varint.read input
    readN (fun s => do
      let (kv, r) ← deserializeV k s
      let (vv, r2) ← deserializeV v r
      .ok ((kv, vv), r2)) n r1

/-- Embeds `SizeBytes::maximum` of `src/binverse/src/serialize.rs`. -/
def SizeBytes.maximum : SizeBytes → Nat
  | .One => 2 ^ 8 - 1
  | .Two => 2 ^ 16 - 1
  | .Four => 2 ^ 32 - 1
  | .Eight | .Var => 2 ^ 64 - 1

/-- Embeds `Serializer::write_size` of `src/binverse/src/streams.rs`: check the
size against the maximum of the chosen width (u8/u16/u32 MAX for the fixed
widths, u64 MAX for Eight and Var), fail with SizeExceeded when it is larger,
otherwise write the size as the fixed-width little-endian integer, or as a
varint for Var.  The Rust casts `size as uN` are exact because of the bound
just checked. -/
def writeSize (sb : SizeBytes) (size : Nat) : Except BinverseError (List Nat) :=
  let maxSize : Nat := match sb with
    | .One => 2 ^ 8 - 1
    | .Two => 2 ^ 16 - 1
    | .Four => 2 ^ 32 - 1
    | .Eight | .Var => 2 ^ 64 - 1
  if maxSize < size then .error (.SizeExceeded sb size)
  else match sb with
    | .One => .ok (leBytes 1 size)
    | .Two => .ok (leBytes 2 size)
    | .Four => .ok (leBytes 4 size)
    | .Eight => .ok (leBytes 8 size)
    | .Var => .ok (varint.write size)

theorem writeSize_var (size : Nat) (h : size < 2 ^ 64) :
    writeSize .Var size = .ok (varint.write size) := by
  have hred : writeSize .Var size =
      if 2 ^ 64 - 1 < size then .error (.SizeExceeded .Var size)
      else .ok (varint.write size) := rfl
  rw [hred, if_neg (by omega)]

/-- Embeds `Serializer::serialize_sized` of `src/binverse/src/streams.rs` for a
sequence of elements of type `t`: take the element count, write it under the
chosen size policy, then write exactly that many elements (the
`SizedSerialize` implementations for slices and Vec of
`src/binverse/src/primitives.rs`).  The error of `write_size` aborts the call
before any element bytes are produced. -/
def serializeSized (sb : SizeBytes) (t : Ty) (xs : List (Value t)) :
    Except BinverseError (List Nat) := do
  let sizePrefix ← writeSize sb xs.length
  .ok (sizePrefix ++ (xs.map (fun x => serializeV t x)).flatten)

/-- Embeds `Serializer::new` of `src/binverse/src/streams.rs`: the output
stream starts with the revision, serialized as a u32 (4 little-endian bytes);
the model state of a serializer is the list of bytes written so far. -/
def Serializer.new (revision : Nat) : List Nat :=
  serializeV (.uintT 4) revision

/-- Embeds `Serializer::new_no_revision`: nothing is written. -/
def Serializer.newNoRevision : List Nat := []

/-- The model state of `Deserializer` of `src/binverse/src/streams.rs`: the
remaining input and the revision field. -/
structure DeserializerState where
  r : List Nat
  revision : Nat
deriving DecidableEq, Repr

/-- Embeds `Deserializer::new`: read the revision from the reader as a u32
(4 little-endian bytes) before anything else. -/
def Deserializer.new (input : List Nat) : Except BinverseError DeserializerState := do
  let (rev, rest) ← deserializeV (.uintT 4) input
  .ok ⟨rest, rev⟩

/-- Embeds `Deserializer::new_no_revision`: nothing is read, the revision is
the externally supplied one. -/
def Deserializer.newNoRevision (input : List Nat) (revision : Nat) : DeserializerState :=
  ⟨input, revision⟩

/-- Embeds `Deserializer::revision` of `src/binverse/src/streams.rs`. -/
def DeserializerState.revisionOf (d : DeserializerState) : Nat := d.revision


theorem exceptBind_ok {α β : Type} (a : α) (f : α → Except BinverseError β) :
    (Except.ok a >>= f : Except BinverseError β) = f a := rfl

theorem exceptBind_error {α β : Type} (e : BinverseError)
    (f : α → Except BinverseError β) :
    (Except.error e >>= f : Except BinverseError β) = .error e := rfl

theorem readBytes_exact (n : Nat) (bs rest : List Nat) (h : bs.length = n) :
    readBytes n (bs ++ rest) = .ok (bs, rest) := by
  subst h
  exact readBytes_append bs rest

theorem readN_over_flatten {α : Type} (f : List Nat → Except BinverseError (α × List Nat))
    (ser : α → List Nat) :
    ∀ (xs : List α) (rest : List Nat),
      (∀ x ∈ xs, ∀ r, f (ser x ++ r) = .ok (x, r)) →
      readN f xs.length ((xs.map ser).flatten ++ rest) = .ok (xs, rest) := by
  intro xs
  induction xs with
  | nil =>
    intro rest _
    simp [readN]
  | cons x xs ih =>
    intro rest h
    simp only [List.map_cons, List.flatten_cons, List.length_cons, List.append_assoc]
    simp only [readN]
    rw [h x (by simp), exceptBind_ok]
    simp only [ih rest (fun a ha r => h a (by simp [ha]) r), exceptBind_ok]

theorem serialize_roundtrip_aux : ∀ (t : Ty) (v : Value t), Wf t v →
    ∀ rest : List Nat, deserializeV t (serializeV t v ++ rest) = .ok (v, rest) := by
  intro t
  induction t with
  | boolT =>
    intro v _ rest
    cases v <;> simp [serializeV, deserializeV]
  | uintT width =>
    intro v hv rest
    simp only [serializeV, deserializeV]
    rw [readBytes_exact width _ rest (leBytes_length width v), exceptBind_ok]
    rw [leDecode_leBytes width v hv]
  | intT width =>
    intro v hv rest
    obtain ⟨hw, hlo, hhi⟩ := hv
    simp only [serializeV, deserializeV]
    rw [readBytes_exact width _ rest (leBytes_length width _), exceptBind_ok]
    have hBpos : (0 : Int) < (2 ^ (8 * width - 1) : Int) := by positivity
    have hMH : (2 ^ (8 * width) : Int) = 2 * 2 ^ (8 * width - 1) := by
      have he : 8 * width - 1 + 1 = 8 * width := by omega
      calc (2 ^ (8 * width) : Int) = 2 ^ (8 * width - 1 + 1) := by rw [he]
        _ = 2 ^ (8 * width - 1) * 2 := pow_succ 2 _
        _ = 2 * 2 ^ (8 * width - 1) := by ring
    have hMpos : (0 : Int) < (2 ^ (8 * width) : Int) := by positivity
    have hmodlo : (0 : Int) ≤ v % (2 ^ (8 * width) : Int) :=
      Int.emod_nonneg v (ne_of_gt hMpos)
    have hmodhi : v % (2 ^ (8 * width) : Int) < (2 ^ (8 * width) : Int) :=
      Int.emod_lt_of_pos v hMpos
    have hcast : (((2 : Nat) ^ (8 * width) : Nat) : Int) = (2 ^ (8 * width) : Int) := by
      push_cast
      ring
    have hHcast : (((2 : Nat) ^ (8 * width - 1) : Nat) : Int) = (2 ^ (8 * width - 1) : Int) := by
      push_cast
      ring
    have hdec : leDecode (leBytes width (v % (2 ^ (8 * width) : Int)).toNat) =
        (v % (2 ^ (8 * width) : Int)).toNat := by
      apply leDecode_leBytes
      have h1 : (((v % (2 ^ (8 * width) : Int)).toNat : Int)) < ((2 ^ (8 * width) : Nat) : Int) := by
        rw [Int.toNat_of_nonneg hmodlo, hcast]
        exact hmodhi
      exact_mod_cast h1
    rw [hdec]
    rcases le_or_lt 0 v with hpos | hneg
    · have hmod : v % (2 ^ (8 * width) : Int) = v := by
        apply Int.emod_eq_of_lt hpos
        linarith [hhi]
      rw [hmod]
      have hcond : v.toNat < 2 ^ (8 * width - 1) := by
        have h1 : ((v.toNat : Int)) < ((2 ^ (8 * width - 1) : Nat) : Int) := by
          rw [Int.toNat_of_nonneg hpos, hHcast]
          exact hhi
        exact_mod_cast h1
      rw [if_pos hcond, Int.toNat_of_nonneg hpos]
    · have hmod : v % (2 ^ (8 * width) : Int) = v + 2 ^ (8 * width) := by
        have h1 : (v + 2 ^ (8 * width) * 1) % (2 ^ (8 * width) : Int) =
            v % (2 ^ (8 * width) : Int) := Int.add_mul_emod_self_left v (2 ^ (8 * width)) 1
        have h2 : (v + 2 ^ (8 * width) * 1) % (2 ^ (8 * width) : Int) =
            v + 2 ^ (8 * width) * 1 := Int.emod_eq_of_lt (by linarith) (by linarith)
        have h3 : v + 2 ^ (8 * width) * 1 = v + 2 ^ (8 * width) := by ring
        rw [← h1, h2, h3]
      rw [hmod]
      have hv2 : (((v + 2 ^ (8 * width)).toNat : Int)) = v + 2 ^ (8 * width) :=
        Int.toNat_of_nonneg (by linarith)
      have hcond : ¬ ((v + 2 ^ (8 * width)).toNat < 2 ^ (8 * width - 1)) := by
        intro hcontr
        have h1 : (((v + 2 ^ (8 * width)).toNat : Int)) <
            ((2 ^ (8 * width - 1) : Nat) : Int) := by exact_mod_cast hcontr
        rw [hv2, hHcast] at h1
        linarith
      rw [if_neg hcond, hv2]
      have h4 : v + 2 ^ (8 * width) - 2 ^ (8 * width) = v := by ring
      rw [h4]
  | arrayT t len ih =>
    intro v hv rest
    obtain ⟨hlen, helem⟩ := hv
    simp only [serializeV, deserializeV]
    rw [← hlen]
    exact readN_over_flatten _ _ v rest (fun x hx r => ih x (helem x hx) r)
  | optionT t ih =>
    intro v hv rest
    match v with
    | none => simp [serializeV, deserializeV]
    | some x =>
      simp only [serializeV, deserializeV, List.cons_append, List.append_eq]
      norm_num
      simp only [ih x hv rest, exceptBind_ok]
  | pairT a b iha ihb =>
    intro v hv rest
    obtain ⟨ha, hb⟩ := hv
    simp only [serializeV, deserializeV, List.append_assoc]
    simp only [iha v.1 ha, exceptBind_ok, ihb v.2 hb]
  | stringT =>
    intro v hv rest
    obtain ⟨hlen, hvalid⟩ := hv
    simp only [serializeV, deserializeV, List.append_assoc]
    rw [varint.read_write v.length hlen, exceptBind_ok]
    unfold stringDeserializeSized
    rw [readBytes_exact v.length v rest rfl, exceptBind_ok]
    simp [hvalid]
  | vecT t ih =>
    intro v hv rest
    obtain ⟨hlen, helem⟩ := hv
    simp only [serializeV, deserializeV, List.append_assoc]
    rw [varint.read_write v.length hlen, exceptBind_ok]
    exact readN_over_flatten _ _ v rest (fun x hx r => ih x (helem x hx) r)
  | mapT k v2 ihk ihv =>
    intro v hv rest
    obtain ⟨hlen, helem⟩ := hv
    simp only [serializeV, deserializeV, List.append_assoc]
    rw [varint.read_write v.length hlen, exceptBind_ok]
    apply readN_over_flatten _ _ v rest
    intro p hp r
    simp only [List.append_assoc]
    simp only [ihk p.1 (helem p hp).1, exceptBind_ok, ihv p.2 (helem p hp).2]

/-- C3: for every supported value type (booleans, fixed-width integers, fixed
arrays, tuples, optionals, strings, sequences, maps) and every value v of that
type (that is, every value satisfying the invariants the Rust type system
guarantees, collected in Wf), deserializing the bytes produced by serializing
v yields exactly v, and consumes exactly the bytes that encoding produced:
whatever rest follows the encoding is left untouched. -/
theorem roundtrip_C3 (t : Ty) (v : Value t) (hv : Wf t v) (rest : List Nat) :
    deserializeV t (serializeV t v ++ rest) = .ok (v, rest) :=
  serialize_roundtrip_aux t v hv rest

/-- Witness for C3 at a compound concrete value: an optional pair of a vector
of booleans and a string, followed by one extra byte of input that must be
left unconsumed. -/
theorem roundtrip_C3_witness :
    deserializeV (.optionT (.pairT (.vecT .boolT) .stringT))
      (serializeV (.optionT (.pairT (.vecT .boolT) .stringT))
        (some ([true, false], [0x68, 0x69])) ++ [0xAB]) =
      .ok (some ([true, false], [0x68, 0x69]), [0xAB]) :=
  roundtrip_C3 (.optionT (.pairT (.vecT .boolT) .stringT))
    (some ([true, false], [0x68, 0x69]))
    ⟨⟨by norm_num, by intro x hx; trivial⟩, by norm_num, by decide⟩ [0xAB]

/-- C6: serializing a sized container under the 1-byte size policy fails with
SizeExceeded carrying limit One and found 256 when the container has 256
elements and succeeds for 255 elements; each fixed-width policy rejects any
element count exceeding its maximum before writing anything (the error is the
whole result, no bytes are produced); under the Var policy every usize length
is accepted and written via the varint codec. -/
theorem size_policy_C6 (t : Ty) (xs : List (Value t)) :
    (xs.length = 256 → serializeSized .One t xs = .error (.SizeExceeded .One 256)) ∧
    (xs.length = 255 →
      serializeSized .One t xs = .ok (255 :: (xs.map (fun x => serializeV t x)).flatten)) ∧
    (∀ sb : SizeBytes, sb ≠ .Var → SizeBytes.maximum sb < xs.length →
      serializeSized sb t xs = .error (.SizeExceeded sb xs.length)) ∧
    (xs.length < 2 ^ 64 →
      serializeSized .Var t xs =
        .ok (varint.write xs.length ++ (xs.map (fun x => serializeV t x)).flatten)) := by
  refine ⟨?_, ?_, ?_, ?_⟩
  · intro h256
    have hred : writeSize .One xs.length =
        if 2 ^ 8 - 1 < xs.length then .error (.SizeExceeded .One xs.length)
        else .ok (leBytes 1 xs.length) := rfl
    unfold serializeSized
    rw [hred, if_pos (by omega), h256]
    rfl
  · intro h255
    have hred : writeSize .One xs.length =
        if 2 ^ 8 - 1 < xs.length then .error (.SizeExceeded .One xs.length)
        else .ok (leBytes 1 xs.length) := rfl
    unfold serializeSized
    rw [hred, if_neg (by omega), exceptBind_ok, h255]
    rfl
  · intro sb hvar hmax
    unfold serializeSized
    cases sb with
    | One =>
      have hred : writeSize .One xs.length =
          if 2 ^ 8 - 1 < xs.length then .error (.SizeExceeded .One xs.length)
          else .ok (leBytes 1 xs.length) := rfl
      rw [hred, if_pos (by simpa [SizeBytes.maximum] using hmax)]
      rfl
    | Two =>
      have hred : writeSize .Two xs.length =
          if 2 ^ 16 - 1 < xs.length then .error (.SizeExceeded .Two xs.length)
          else .ok (leBytes 2 xs.length) := rfl
      rw [hred, if_pos (by simpa [SizeBytes.maximum] using hmax)]
      rfl
    | Four =>
      have hred : writeSize .Four xs.length =
          if 2 ^ 32 - 1 < xs.length then .error (.SizeExceeded .Four xs.length)
          else .ok (leBytes 4 xs.length) := rfl
      rw [hred, if_pos (by simpa [SizeBytes.maximum] using hmax)]
      rfl
    | Eight =>
      have hred : writeSize .Eight xs.length =
          if 2 ^ 64 - 1 < xs.length then .error (.SizeExceeded .Eight xs.length)
          else .ok (leBytes 8 xs.length) := rfl
      rw [hred, if_pos (by simpa [SizeBytes.maximum] using hmax)]
      rfl
    | Var => exact absurd rfl hvar
  · intro hlen
    unfold serializeSized
    rw [writeSize_var xs.length hlen, exceptBind_ok]

/-- Witness for C6: 256 booleans are rejected with SizeExceeded One 256, 255
booleans are accepted, 65536 booleans are rejected under the Two policy, and
the Var policy accepts 256 booleans with a two-byte varint length prefix. -/
theorem size_policy_C6_witness :
    (serializeSized .One .boolT (List.replicate 256 true) =
      .error (.SizeExceeded .One 256)) ∧
    (serializeSized .One .boolT (List.replicate 255 true) =
      .ok (255 :: ((List.replicate 255 true).map
        (fun x => serializeV .boolT x)).flatten)) ∧
    (serializeSized .Two .boolT (List.replicate 65536 true) =
      .error (.SizeExceeded .Two 65536)) ∧
    (serializeSized .Var .boolT (List.replicate 256 true) =
      .ok (varint.write 256 ++ ((List.replicate 256 true).map
        (fun x => serializeV .boolT x)).flatten)) := by
  refine ⟨?_, ?_, ?_, ?_⟩
  · exact (size_policy_C6 .boolT (List.replicate 256 true)).1 (by rw [List.length_replicate])
  · exact (size_policy_C6 .boolT (List.replicate 255 true)).2.1 (by rw [List.length_replicate])
  · have h := (size_policy_C6 .boolT (List.replicate 65536 true)).2.2.1 .Two
      (by intro hcontr; cases hcontr)
      (by rw [List.length_replicate]; norm_num [SizeBytes.maximum])
    rw [List.length_replicate] at h
    exact h
  · have h := (size_policy_C6 .boolT (List.replicate 256 true)).2.2.2
      (by rw [List.length_replicate]; norm_num)
    rw [List.length_replicate] at h
    exact h

/-- C7: deserializing a boolean returns false on the byte 0, true on the byte
1 and fails with InvalidData on every other byte; deserializing an optional
returns none on the discriminant byte 0, reads and wraps the payload on the
byte 1, and fails with InvalidData on any other discriminant byte. -/
theorem invalid_data_C7 (b : Nat) (rest : List Nat) (t : Ty) :
    deserializeV .boolT (0 :: rest) = .ok (false, rest) ∧
    deserializeV .boolT (1 :: rest) = .ok (true, rest) ∧
    (2 ≤ b → deserializeV .boolT (b :: rest) = .error .InvalidData) ∧
    deserializeV (.optionT t) (0 :: rest) = .ok (none, rest) ∧
    deserializeV (.optionT t) (1 :: rest) =
      (deserializeV t rest >>= fun p => .ok (some p.1, p.2)) ∧
    (2 ≤ b → deserializeV (.optionT t) (b :: rest) = .error .InvalidData) := by
  refine ⟨by simp [deserializeV], by simp [deserializeV], ?_, by simp [deserializeV],
    by simp [deserializeV], ?_⟩
  · intro hb
    simp only [deserializeV]
    rw [if_neg (by omega), if_neg (by omega)]
  · intro hb
    simp only [deserializeV]
    rw [if_neg (by omega), if_neg (by omega)]

/-- Witness for C7 at the byte 0xCC and a one-byte payload. -/
theorem invalid_data_C7_witness :
    deserializeV .boolT (0 :: [9]) = .ok (false, [9]) ∧
    deserializeV .boolT (1 :: [9]) = .ok (true, [9]) ∧
    (2 ≤ 0xCC → deserializeV .boolT (0xCC :: [9]) = .error .InvalidData) ∧
    deserializeV (.optionT .boolT) (0 :: [9]) = .ok (none, [9]) ∧
    deserializeV (.optionT .boolT) (1 :: [9]) =
      (deserializeV .boolT [9] >>= fun p => .ok (some p.1, p.2)) ∧
    (2 ≤ 0xCC → deserializeV (.optionT .boolT) (0xCC :: [9]) = .error .InvalidData) :=
  invalid_data_C7 0xCC [9] .boolT

/-- C8: deserializing a string of a given size reads exactly that many raw
bytes (the remainder of the input is exactly the input with those bytes
dropped), fails with InvalidUTF8 exactly when those bytes are not valid UTF-8
(never yielding a lossily converted string), and returns exactly those bytes
as the text when they are valid. -/
theorem string_utf8_C8 (n : Nat) (input : List Nat) (h : n ≤ input.length) :
    stringDeserializeSized n input =
      if isValidUtf8 (input.take n) then .ok (input.take n, input.drop n)
      else .error .InvalidUTF8 := by
  unfold stringDeserializeSized readBytes
  rw [if_pos h, exceptBind_ok]

/-- Witness for C8: reading 2 bytes from the valid UTF-8 input 0x68 0x69 0xFF
returns the text 0x68 0x69 and leaves 0xFF; the same theorem applied to the
invalid input 0xFF 0xFE shows the InvalidUTF8 failure (evaluated here via the
if on the concrete validity results). -/
theorem string_utf8_C8_witness :
    (stringDeserializeSized 2 [0x68, 0x69, 0xFF] =
      if isValidUtf8 ([0x68, 0x69, 0xFF].take 2) then
        .ok ([0x68, 0x69, 0xFF].take 2, [0x68, 0x69, 0xFF].drop 2)
      else .error .InvalidUTF8) ∧
    (stringDeserializeSized 2 [0xFF, 0xFE] =
      if isValidUtf8 ([0xFF, 0xFE].take 2) then
        .ok ([0xFF, 0xFE].take 2, [0xFF, 0xFE].drop 2)
      else .error .InvalidUTF8) :=
  ⟨string_utf8_C8 2 [0x68, 0x69, 0xFF] (by norm_num),
    string_utf8_C8 2 [0xFF, 0xFE] (by norm_num)⟩

/-- C9: Serializer.new writes the revision as 4 little-endian bytes as the
first bytes of the stream (and a Deserializer.new on that output recovers
exactly the revision, consuming exactly those 4 bytes), while
Serializer.newNoRevision writes nothing; Deserializer.new reads exactly 4
bytes as a little-endian u32 before anything else and its revision accessor
returns that value, while Deserializer.newNoRevision reads nothing and its
revision accessor returns the externally supplied value. -/
theorem revision_header_C9 (rev rsup : Nat) (hrev : rev < 2 ^ 32)
    (input rest : List Nat) (h4 : 4 ≤ input.length) :
    Serializer.new rev = leBytes 4 rev ∧
    (Serializer.new rev).length = 4 ∧
    Serializer.newNoRevision = ([] : List Nat) ∧
    Deserializer.new input = .ok ⟨input.drop 4, leDecode (input.take 4)⟩ ∧
    Deserializer.new (Serializer.new rev ++ rest) = .ok ⟨rest, rev⟩ ∧
    Deserializer.newNoRevision input rsup = ⟨input, rsup⟩ ∧
    DeserializerState.revisionOf ⟨input, rsup⟩ = rsup := by
  refine ⟨rfl, leBytes_length 4 rev, rfl, ?_, ?_, rfl, rfl⟩
  · unfold Deserializer.new
    simp only [deserializeV]
    unfold readBytes
    rw [if_pos h4, exceptBind_ok, exceptBind_ok]
  · unfold Deserializer.new
    have h := serialize_roundtrip_aux (.uintT 4) rev (by simpa using hrev) rest
    simp only [Serializer.new]
    rw [h, exceptBind_ok]

/-- Witness for C9 at revision 7 with a 6-byte input stream. -/
theorem revision_header_C9_witness :
    Serializer.new 7 = leBytes 4 7 ∧
    (Serializer.new 7).length = 4 ∧
    Serializer.newNoRevision = ([] : List Nat) ∧
    Deserializer.new [7, 0, 0, 0, 5, 6] =
      .ok ⟨[7, 0, 0, 0, 5, 6].drop 4, leDecode ([7, 0, 0, 0, 5, 6].take 4)⟩ ∧
    Deserializer.new (Serializer.new 7 ++ [5, 6]) = .ok ⟨[5, 6], 7⟩ ∧
    Deserializer.newNoRevision [7, 0, 0, 0, 5, 6] 42 = ⟨[7, 0, 0, 0, 5, 6], 42⟩ ∧
    DeserializerState.revisionOf ⟨[7, 0, 0, 0, 5, 6], 42⟩ = 42 :=
  revision_header_C9 7 42 (by norm_num) [7, 0, 0, 0, 5, 6] [5, 6] (by norm_num)

/-- Embeds `AttributedField` of `src/binverse_derive/src/lib.rs`: the chain of
Added and Removed modifiers wrapped around a field type (the carried type and
the SizeBytes attribute are kept separately in FieldDecl; the claims under
verification do not involve the SizeBytes attribute). -/
inductive FieldMod where
  | normal : FieldMod
  | added : Nat → FieldMod → FieldMod
  | removed : Nat → FieldMod → FieldMod
deriving DecidableEq, Repr

/-- Embeds `AttributedField::is_removed`: only the outermost modifier counts. -/
def FieldMod.isRemoved : FieldMod → Bool
  | .removed _ _ => true
  | _ => false

/-- A generated match pattern over the revision: `(lo, some hi)` is the Rust
range pattern `lo..=hi`, `(lo, none)` is `lo..`. -/
@[reducible] def RevPattern : Type := Nat × Option Nat

/-- Embeds the result type `AddPatResult` nested in
`AttributedField::deserialize_patterns`. -/
inductive AddPatResult where
  | addedR : Nat → AddPatResult
  | removedR : Nat → AddPatResult
  | normalR : AddPatResult
deriving DecidableEq, Repr

/-- Embeds the recursive `add_pat` helper of
`AttributedField::deserialize_patterns`.  The panics of the macro (chained
Added, chained Removed, inner revision not smaller than the outer one) are
compile-time failures of the Rust build; they are modelled as the error case,
which no compiled program can reach.  Note the Rust `revision - 1` for a
Removed end bound is u32 arithmetic; for the claims both revisions come from
a valid interval so the subtraction never underflows. -/
def addPat : FieldMod → Except Unit (List RevPattern × AddPatResult)
  | .normal => .ok ([], .normalR)
  | .added rev inner => do
    let (pats, res) ← addPat inner
    match res with
    | .addedR _ => .error ()
    | .removedR removedRev =>
      if rev ≤ removedRev then .error ()
      else .ok (pats, .addedR rev)
    | .normalR => .ok (pats, .addedR rev)
  | .removed rev inner => do
    let (pats, res) ← addPat inner
    match res with
    | .addedR startRev => .ok (pats ++ [(startRev, some (rev - 1))], .removedR rev)
    | .removedR _ => .error ()
    | .normalR => .ok (pats ++ [(0, some (rev - 1))], .removedR rev)

/-- Embeds `AttributedField::deserialize_patterns`: run `add_pat`, and when the
outermost state is Added, append the open pattern `rev..`. -/
def deserializePatterns (f : FieldMod) : Except Unit (List RevPattern) := do
  let (pats, res) ← addPat f
  match res with
  | .addedR rev => .ok (pats ++ [(rev, none)])
  | _ => .ok pats

/-- Matching of one generated revision pattern: `lo..` matches every revision
at least lo, `lo..=hi` matches the revisions between lo and hi inclusive. -/
def patMatches (r : Nat) : RevPattern → Bool
  | (lo, none) => lo ≤ r
  | (lo, some hi) => lo ≤ r && r ≤ hi

/-- Matching of the generated `p1 | p2 | ...` alternative in the emitted
`match d.revision()` expression. -/
def patsMatch (pats : List RevPattern) (r : Nat) : Bool :=
  pats.any (patMatches r)

/-- One declared field of a record handed to the `serializable` macro: its
modifier chain and its value type. -/
structure FieldDecl where
  mods : FieldMod
  ty : Ty
deriving DecidableEq

/-- The Rust `Default::default()` value of each universe type, used by the
generated deserializer for fields whose interval does not contain the stored
revision (numbers default to 0, booleans to false, optionals to None,
strings, vectors and maps to empty, arrays to an array of element defaults,
tuples to the tuple of defaults). -/
def defaultV : (t : Ty) → Value t
  | .boolT => false
  | .uintT _ => 0
  | .intT _ => 0
  | .arrayT t len => List.replicate len (defaultV t)
  | .optionT _ => none
  | .pairT a b => (defaultV a, defaultV b)
  | .stringT => []
  | .vecT _ => []
  | .mapT _ _ => []

/-- Embeds the serializer emitted by `impl_serializable` of
`src/binverse_derive/src/lib.rs` for a struct: the generated code filters out
every field marked Removed (such a field is stripped from the struct and has
no value at all) and serializes each remaining field unconditionally in
declaration order.  The generated `Serialize::serialize` receives no revision:
the `Serializer` of `src/binverse/src/streams.rs` does not store one, so the
emitted bytes cannot depend on the current revision.  `vals` are the runtime
values of the kept (non-removed) fields in declaration order; the `[]`
fallback for a too-short value list is unreachable for a well-formed record
value. -/
def recordSerialize : List FieldDecl → List ((t : Ty) × Value t) → List Nat
  | [], _ => []
  | f :: fs, vals =>
    if f.mods.isRemoved then recordSerialize fs vals
    else
      match vals with
      | [] => []
      | v :: vs => serializeV v.1 v.2 ++ recordSerialize fs vs

/-- Embeds the deserializer emitted by `impl_serializable` of
`src/binverse_derive/src/lib.rs` for a struct, one field at a time, in
declaration order, against the stored revision `r` of the stream:

* a field with no patterns is read unconditionally;
* a Removed field is read and discarded (`let _ : T = ...`) when the revision
  matches its patterns, and skipped entirely otherwise — it never appears in
  the resulting record;
* a kept field with patterns is read from the wire when the revision matches
  and populated with the Default value otherwise.

The record value is returned as the list of kept field values in declaration
order.  A declaration on which the macro panics at compile time is modelled
as the InvalidData error (unreachable for compiled programs). -/
def recordDeserialize : List FieldDecl → Nat → List Nat →
    Except BinverseError (List ((t : Ty) × Value t) × List Nat)
  | [], _, input => .ok ([], input)
  | f :: fs, r, input =>
    match deserializePatterns f.mods with
    | .error _ => .error .InvalidData
    | .ok pats =>
      if pats.isEmpty then do
        let (v, rest) ← deserializeV f.ty input
        let (vs, rest2) ← recordDeserialize fs r rest
        .ok (⟨f.ty, v⟩ :: vs, rest2)
      else if f.mods.isRemoved then
        if patsMatch pats r then do
          let (_, rest) ← deserializeV f.ty input
          recordDeserialize fs r rest
        else recordDeserialize fs r input
      else
        if patsMatch pats r then do
          let (v, rest) ← deserializeV f.ty input
          let (vs, rest2) ← recordDeserialize fs r rest
          .ok (⟨f.ty, v⟩ :: vs, rest2)
        else do
          let (vs, rest2) ← recordDeserialize fs r input
          .ok (⟨f.ty, defaultV f.ty⟩ :: vs, rest2)

/-- A whole write stream: `Serializer::new` writes the revision header, then
the record is serialized by the generated code (which cannot see `rev`). -/
def streamSerialize (rev : Nat) (fields : List FieldDecl)
    (vals : List ((t : Ty) × Value t)) : List Nat :=
  Serializer.new rev ++ recordSerialize fields vals

/-- The validity interval of a field declaration, following the wording of the
spec (not the code): no modifier means the interval from 0 with no upper
bound, `Added a` introduces the lower bound a, `Removed b` the exclusive upper
bound b, and the composed `Removed b (Added a)` the interval from a up to b
exclusive.  Other shapes carry no single interval. -/
def specInterval : FieldMod → Option (Nat × Option Nat)
  | .normal => some (0, none)
  | .added a .normal => some (a, none)
  | .removed b .normal => some (0, some b)
  | .removed b (.added a .normal) => some (a, some b)
  | _ => none

/-- Membership of a revision in a spec validity interval, following the
wording of the spec: a revision r is in the interval from a up to b exclusive
exactly when a is at most r and r is below b (no upper bound when b is
absent). -/
def specInRange (itv : Nat × Option Nat) (r : Nat) : Prop :=
  itv.1 ≤ r ∧ ∀ b, itv.2 = some b → r < b

/-- C1 counterexample: the claim states that a field with validity interval
from a up to b exclusive is written iff a is at most the current revision r
and r is below b.  The generated serializer does not consult the revision at
all.  Concretely: a one-field record whose field is declared Added at
revision 1 (interval from 1, no upper bound) is serialized at current
revision 0; the claim says the field must be omitted (its interval does not
contain 0), but the stream contains the field byte 5 right after the 4-byte
revision header.  Conversely a field declared Removed at revision 5 (interval
from 0 up to 5 exclusive) is serialized at current revision 3; the claim says
the field must be written (3 is in the interval), but the macro strips the
field from the struct and the stream contains only the header. -/
theorem field_serialize_C1_counterexample :
    specInterval (.added 1 .normal) = some (1, none) ∧
    ¬ specInRange (1, none) 0 ∧
    streamSerialize 0 [⟨.added 1 .normal, .uintT 1⟩] [⟨.uintT 1, 5⟩] = [0, 0, 0, 0, 5] ∧
    specInterval (.removed 5 .normal) = some (0, some 5) ∧
    specInRange (0, some 5) 3 ∧
    streamSerialize 3 [⟨.removed 5 .normal, .uintT 1⟩] [] = [3, 0, 0, 0] := by
  refine ⟨rfl, ?_, ?_, rfl, ?_, ?_⟩
  · rintro ⟨h, _⟩
    omega
  · simp [streamSerialize, Serializer.new, serializeV, leBytes, recordSerialize,
      FieldMod.isRemoved]
  · exact ⟨Nat.zero_le 3, fun b hb => by injection hb with h; omega⟩
  · simp [streamSerialize, Serializer.new, serializeV, leBytes, recordSerialize,
      FieldMod.isRemoved]

/-- C1 amended: the generated serializer writes a field iff the field is not
declared Removed, independently of the current revision (which the generated
code cannot even observe: the Serializer stores no revision).  A Removed field
is stripped from the struct and contributes no bytes and no tombstone marker;
every kept field contributes exactly its serialization, in declaration
order. -/
theorem field_serialize_C1_amended (f : FieldMod) (t : Ty) (v : Value t)
    (fs : List FieldDecl) (vals : List ((u : Ty) × Value u)) :
    (f.isRemoved = true →
      recordSerialize (⟨f, t⟩ :: fs) vals = recordSerialize fs vals) ∧
    (f.isRemoved = false →
      recordSerialize (⟨f, t⟩ :: fs) (⟨t, v⟩ :: vals) =
        serializeV t v ++ recordSerialize fs vals) := by
  constructor
  · intro h
    simp [recordSerialize, h]
  · intro h
    simp [recordSerialize, h]

/-- Witness for C1 amended: a Removed field contributes nothing; an Added
field contributes its bytes. -/
theorem field_serialize_C1_witness :
    recordSerialize [⟨.removed 1 .normal, .uintT 1⟩] [⟨.uintT 1, (7 : Nat)⟩] =
      recordSerialize [] [⟨.uintT 1, (7 : Nat)⟩] ∧
    recordSerialize [⟨.added 1 .normal, .uintT 1⟩] (⟨.uintT 1, (5 : Nat)⟩ :: []) =
      serializeV (.uintT 1) 5 ++ recordSerialize [] [] :=
  ⟨(field_serialize_C1_amended (.removed 1 .normal) (.uintT 1) 7 []
      [⟨.uintT 1, (7 : Nat)⟩]).1 rfl,
    (field_serialize_C1_amended (.added 1 .normal) (.uintT 1) 5 [] []).2 rfl⟩

/-- C2: the generated deserializer reads a field from the wire iff the stored
revision r lies in the validity interval declared by the Added/Removed
modifiers, for each of the four declarable shapes:

* unconditional field (interval from 0, no bound): always read;
* Added a (interval from a, no bound): read iff a is at most r, populated
  with the Default value of the type otherwise;
* Removed b (interval from 0 up to b exclusive): the wire value is consumed
  (and discarded) iff r is below b, nothing consumed otherwise — the removed
  field is stripped from the struct, so the resulting record never holds it;
* Removed b around Added a (interval from a up to b exclusive): consumed iff
  a is at most r and r is below b.

In particular a field removed at revision 1 is consumed from revision-0 data
and skipped for revision-1 data, while a field added at revision 1 is
defaulted for revision-0 data and read from the wire for revision-1 data. -/
theorem field_deserialize_C2 (a b r : Nat) (hab : a < b) (t : Ty)
    (fs : List FieldDecl) (input : List Nat) :
    (recordDeserialize (⟨.normal, t⟩ :: fs) r input = do
        let (v, rest) ← deserializeV t input
        let (vs, rest2) ← recordDeserialize fs r rest
        .ok (⟨t, v⟩ :: vs, rest2)) ∧
    (recordDeserialize (⟨.added a .normal, t⟩ :: fs) r input =
      if a ≤ r then do
        let (v, rest) ← deserializeV t input
        let (vs, rest2) ← recordDeserialize fs r rest
        .ok (⟨t, v⟩ :: vs, rest2)
      else do
        let (vs, rest2) ← recordDeserialize fs r input
        .ok (⟨t, defaultV t⟩ :: vs, rest2)) ∧
    (recordDeserialize (⟨.removed b .normal, t⟩ :: fs) r input =
      if r < b then do
        let (_, rest) ← deserializeV t input
        recordDeserialize fs r rest
      else recordDeserialize fs r input) ∧
    (recordDeserialize (⟨.removed b (.added a .normal), t⟩ :: fs) r input =
      if a ≤ r ∧ r < b then do
        let (_, rest) ← deserializeV t input
        recordDeserialize fs r rest
      else recordDeserialize fs r input) := by
  refine ⟨?_, ?_, ?_, ?_⟩
  · have hp : deserializePatterns .normal = .ok [] := rfl
    simp [recordDeserialize, hp]
  · have hp : deserializePatterns (.added a .normal) = .ok [(a, none)] := rfl
    by_cases har : a ≤ r
    · have hm : patsMatch [((a : Nat), (none : Option Nat))] r = true := by
        simp [patsMatch, patMatches, har]
      simp [recordDeserialize, hp, hm, har, FieldMod.isRemoved]
    · have hm : patsMatch [((a : Nat), (none : Option Nat))] r = false := by
        simp only [patsMatch, patMatches, List.any_cons, List.any_nil, Bool.or_false]
        simpa using har
      simp [recordDeserialize, hp, hm, har, FieldMod.isRemoved]
  · have hp : deserializePatterns (.removed b .normal) = .ok [(0, some (b - 1))] := rfl
    by_cases hr : r < b
    · have hm : patsMatch [((0 : Nat), some (b - 1))] r = true := by
        simp only [patsMatch, patMatches, List.any_cons, List.any_nil, Bool.or_false]
        simp only [Bool.and_eq_true, decide_eq_true_eq]
        omega
      simp [recordDeserialize, hp, hm, hr, FieldMod.isRemoved]
    · have hm : patsMatch [((0 : Nat), some (b - 1))] r = false := by
        simp only [patsMatch, patMatches, List.any_cons, List.any_nil, Bool.or_false]
        simp only [Bool.and_eq_false_iff, decide_eq_false_iff_not]
        omega
      simp [recordDeserialize, hp, hm, hr, FieldMod.isRemoved]
  · have hp : deserializePatterns (.removed b (.added a .normal)) =
        .ok [(a, some (b - 1))] := by
      have h1 : addPat (.added a .normal) = .ok ([], .addedR a) := rfl
      unfold deserializePatterns addPat
      rw [h1]
      rfl
    by_cases hr : a ≤ r ∧ r < b
    · have hm : patsMatch [((a : Nat), some (b - 1))] r = true := by
        simp only [patsMatch, patMatches, List.any_cons, List.any_nil, Bool.or_false]
        simp only [Bool.and_eq_true, decide_eq_true_eq]
        omega
      simp [recordDeserialize, hp, hm, hr, FieldMod.isRemoved]
    · have hm : patsMatch [((a : Nat), some (b - 1))] r = false := by
        simp only [patsMatch, patMatches, List.any_cons, List.any_nil, Bool.or_false]
        simp only [Bool.and_eq_false_iff, decide_eq_false_iff_not]
        omega
      simp [recordDeserialize, hp, hm, hr, FieldMod.isRemoved]

/-- Witness for C2 with the interval from 1 up to 2 exclusive, stored revision
0, a one-byte unsigned field and the one-byte input 9. -/
theorem field_deserialize_C2_witness :
    (recordDeserialize [⟨.normal, .uintT 1⟩] 0 [9] = do
        let (v, rest) ← deserializeV (.uintT 1) [9]
        let (vs, rest2) ← recordDeserialize [] 0 rest
        .ok (⟨.uintT 1, v⟩ :: vs, rest2)) ∧
    (recordDeserialize [⟨.added 1 .normal, .uintT 1⟩] 0 [9] =
      if 1 ≤ 0 then do
        let (v, rest) ← deserializeV (.uintT 1) [9]
        let (vs, rest2) ← recordDeserialize [] 0 rest
        .ok (⟨.uintT 1, v⟩ :: vs, rest2)
      else do
        let (vs, rest2) ← recordDeserialize [] 0 [9]
        .ok (⟨.uintT 1, defaultV (.uintT 1)⟩ :: vs, rest2)) ∧
    (recordDeserialize [⟨.removed 2 .normal, .uintT 1⟩] 0 [9] =
      if 0 < 2 then do
        let (_, rest) ← deserializeV (.uintT 1) [9]
        recordDeserialize [] 0 rest
      else recordDeserialize [] 0 [9]) ∧
    (recordDeserialize [⟨.removed 2 (.added 1 .normal), .uintT 1⟩] 0 [9] =
      if 1 ≤ 0 ∧ 0 < 2 then do
        let (_, rest) ← deserializeV (.uintT 1) [9]
        recordDeserialize [] 0 rest
      else recordDeserialize [] 0 [9]) :=
  field_deserialize_C2 1 2 0 (by norm_num) (.uintT 1) [] [9]
